import Mathlib

/- A shallow embedding of the pdfmake layout engine (src/layoutBuilder.js):
the line packer (buildNextLine, processLeaf), the row/column processor
(page-break merging in processRow, getEndingCell, column-span width
accumulation), the node dispatcher (processNode), the watermark font-size
binary search (getSize inside addWatermark), and the page-break convergence
loop (layoutDocument / addPageBreaksIfNecessary).

JavaScript numbers are modelled as exact rationals, strings as lists of
characters, and the external collaborators (text metrics, the Line class
geometry queries, the page writer) as explicit function parameters. -/

namespace PdfmakeLayout

/-- Math.floor on an exact rational (JavaScript semantics for finite
values). -/
def jsFloor (q : ℚ) : ℤ := q.num.fdiv q.den

/-- A recorded position; only the page number is relevant to the machinery
verified here. -/
structure Position where
  pageNumber : Nat
  deriving DecidableEq, Repr

/-- A measured inline text run (output of the measurement collaborator),
restricted to the fields that buildNextLine and processLeaf read or write. -/
structure Inline where
  text : List Char
  width : ℚ
  font : Nat
  fontSize : ℚ
  characterSpacing : ℚ
  fontFeatures : Nat
  noWrap : Bool
  noNewLine : Bool
  tocItemRef : Option Nat := none
  pageRef : Option Nat := none
  pageNodeRef : Option Nat := none
  deriving DecidableEq, Repr

/-- The state of the Line collaborator that the layout builder observes: the
fixed maximum width, the inlines added so far, the last-line flag and the
page-node reference field assigned by processLeaf. -/
structure LineM where
  maxWidth : ℚ
  inlines : List Inline := []
  lastLineInParagraph : Bool := false
  pageNodeRef : Option Nat := none
  deriving DecidableEq, Repr

/-- line.addInline(inline): append the run to the line. -/
def LineM.addInline (l : LineM) (i : Inline) : LineM :=
  { l with inlines := l.inlines ++ [i] }

/-- The external collaborators of the text flow: the text-metrics width
function, the Line geometry queries, the line height and the page writer. -/
structure TextEnv where
  widthOfString : List Char → Nat → ℚ → ℚ → Nat → ℚ
  hasEnoughSpaceForInline : LineM → Inline → List Inline → Bool
  getAvailableWidth : LineM → ℚ
  maxWidth : ℚ
  getHeight : LineM → ℚ
  addLine : LineM → Position

/-- The estimated character budget of the hard-wrap branch:
Math.floor(availableWidth / (inline.width / inline.text.length)), clamped to
a minimum of one character. -/
def wrapChars (availableWidth : ℚ) (inline : Inline) : Nat :=
  if jsFloor (availableWidth / (inline.width / (inline.text.length : ℚ))) < 1 then 1
  else (jsFloor (availableWidth / (inline.width / (inline.text.length : ℚ)))).toNat

/-- The hard-wrap branch of buildNextLine: split an oversized run at the
estimated character budget, re-measuring both halves through the
text-metrics collaborator wf.  Returns none when the run is not split. -/
def hardWrapSplit (wf : List Char → Nat → ℚ → ℚ → Nat → ℚ) (availableWidth : ℚ)
    (inline : Inline) : Option (Inline × Inline) :=
  if inline.noWrap = false ∧ 1 < inline.text.length ∧ availableWidth < inline.width then
    if wrapChars availableWidth inline < inline.text.length then
      some
        ({ inline with
            text := inline.text.take (wrapChars availableWidth inline),
            width := wf (inline.text.take (wrapChars availableWidth inline)) inline.font
              inline.fontSize inline.characterSpacing inline.fontFeatures },
         { inline with
            text := inline.text.drop (wrapChars availableWidth inline),
            width := wf (inline.text.drop (wrapChars availableWidth inline)) inline.font
              inline.fontSize inline.characterSpacing inline.fontFeatures })
    else none
  else none

theorem one_le_wrapChars (availableWidth : ℚ) (inline : Inline) :
    1 ≤ wrapChars availableWidth inline := by
  unfold wrapChars
  split
  · exact le_refl 1
  · next h =>
    have h1 : (1 : ℤ) ≤ jsFloor (availableWidth / (inline.width / (inline.text.length : ℚ))) := by
      omega
    omega

theorem hardWrapSplit_eq_some {wf : List Char → Nat → ℚ → ℚ → Nat → ℚ}
    {availableWidth : ℚ} {inline headI tailI : Inline}
    (h : hardWrapSplit wf availableWidth inline = some (headI, tailI)) :
    ∃ k, k = wrapChars availableWidth inline ∧ 1 ≤ k ∧ k < inline.text.length ∧
      headI = { inline with
        text := inline.text.take k,
        width := wf (inline.text.take k) inline.font inline.fontSize
          inline.characterSpacing inline.fontFeatures } ∧
      tailI = { inline with
        text := inline.text.drop k,
        width := wf (inline.text.drop k) inline.font inline.fontSize
          inline.characterSpacing inline.fontFeatures } := by
  unfold hardWrapSplit at h
  split at h
  · split at h
    · next hlt =>
      refine ⟨wrapChars availableWidth inline, rfl, one_le_wrapChars _ _, hlt, ?_, ?_⟩
      · exact (Prod.mk.injEq _ _ _ _ ▸ Option.some.injEq _ _ ▸ h).1.symm
      · exact (Prod.mk.injEq _ _ _ _ ▸ Option.some.injEq _ _ ▸ h).2.symm
    · exact absurd h (by simp)
  · exact absurd h (by simp)

/-- The tail-splitting step strictly shrinks the text of the run, which is
what bounds the packing loop. -/
theorem hardWrapSplit_tail_lt {wf : List Char → Nat → ℚ → ℚ → Nat → ℚ}
    {availableWidth : ℚ} {inline headI tailI : Inline}
    (h : hardWrapSplit wf availableWidth inline = some (headI, tailI)) :
    tailI.text.length < inline.text.length ∧ 1 ≤ tailI.text.length := by
  obtain ⟨k, _, hk1, hklt, _, htail⟩ := hardWrapSplit_eq_some h
  subst htail
  simp only [List.length_drop]
  omega

/-- The consuming loop of buildNextLine: repeatedly shift the front run while
the line has enough remaining space for it (or a forced continuation is
pending), hard-wrapping an oversized run and re-queueing its tail at the
front.  Returns the line state together with the remaining queue. -/
def buildLoop (env : TextEnv) :
    List Inline → LineM → Bool → LineM × List Inline
  | [], line, _ => (line, [])
  | inline :: rest, line, force =>
    if env.hasEnoughSpaceForInline line inline rest || force then
      match h : hardWrapSplit env.widthOfString (env.getAvailableWidth line) inline with
      | some (headI, tailI) =>
        buildLoop env (tailI :: rest) (line.addInline headI) false
      | none =>
        buildLoop env rest (line.addInline inline) inline.noNewLine
    else (line, inline :: rest)
  termination_by queue _ _ => (queue.map fun i => i.text.length).sum + queue.length
  decreasing_by
  · have := hardWrapSplit_tail_lt h
    simp only [List.map_cons, List.sum_cons, List.length_cons]
    omega
  · simp only [List.map_cons, List.sum_cons, List.length_cons]
    omega

/-- buildNextLine(textNode): returns none when the pending queue is empty,
otherwise one built line (whose lastLineInParagraph flag records whether the
queue was exhausted) together with the remaining queue. -/
def buildNextLine (env : TextEnv) (queue : List Inline) :
    Option (LineM × List Inline) :=
  match queue with
  | [] => none
  | q =>
    let out := buildLoop env q { maxWidth := env.maxWidth } false
    some ({ out.1 with lastLineInParagraph := out.2.isEmpty }, out.2)

/-- A text leaf node as processLeaf sees it. -/
structure LeafNode where
  inlines : List Inline
  maxHeight : Option ℚ := none
  tocItemRef : Option Nat := none
  pageRef : Option Nat := none
  deriving DecidableEq, Repr

/-- The per-inline reference assignments of processLeaf, guarded in the
source by a null check on the line. -/
def setInlineRefs (line : LineM) : LineM :=
  { line with inlines := line.inlines.map fun i =>
      let i1 := match i.tocItemRef with
        | some r => { i with pageNodeRef := some r }
        | none => i
      match i1.pageRef with
      | some r => { i1 with pageNodeRef := some r }
      | none => i1 }

/-- The unguarded reference assignments at the top of processLeaf: writing
line.pageNodeRef when the node carries a reference.  When the built line is
null and a reference is present this is a TypeError (outer none); otherwise
the possibly-updated line is returned. -/
def applyNodeRefs (node : LeafNode) (line : Option (LineM × List Inline)) :
    Option (Option (LineM × List Inline)) :=
  match line with
  | none =>
    if node.tocItemRef.isSome || node.pageRef.isSome then none else some none
  | some (l, rest) =>
    let l1 := match node.tocItemRef with
      | some r => { l with pageNodeRef := some r }
      | none => l
    let l2 := match node.pageRef with
      | some r => { l1 with pageNodeRef := some r }
      | none => l1
    some (some (setInlineRefs l2, rest))

/-- The emission loop of processLeaf: while a line exists and the maxHeight
cap (minus one meaning unbounded) is not reached, emit it through the page
writer, record the returned position and build the next line. -/
def processLeafLoop (env : TextEnv) :
    Nat → Option (LineM × List Inline) → ℚ → ℚ → List Position → List Position
  | 0, _, _, _, acc => acc
  | _ + 1, none, _, _, acc => acc
  | fuel + 1, some (line, rest), currentHeight, maxH, acc =>
    if maxH = -1 ∨ currentHeight < maxH then
      let pos := env.addLine line
      let next := buildNextLine env rest
      let ch := match next with
        | some (l2, _) => currentHeight + env.getHeight l2
        | none => currentHeight
      processLeafLoop env fuel next ch maxH (acc ++ [pos])
    else acc

/-- processLeaf(node): build the first line, apply the reference assignments
(the unguarded ones may raise a TypeError, modelled as none), then emit lines
until exhausted or the maxHeight cap is reached.  Returns the recorded
positions. -/
def processLeaf (env : TextEnv) (fuel : Nat) (node : LeafNode) :
    Option (List Position) :=
  let first := buildNextLine env node.inlines
  let currentHeight : ℚ := match first with
    | some (l, _) => env.getHeight l
    | none => 0
  let maxH : ℚ := match node.maxHeight with
    | some h => if h = 0 then -1 else h
    | none => -1
  match applyNodeRefs node first with
  | none => none
  | some first1 => some (processLeafLoop env fuel first1 currentHeight maxH [])

/-- A page-break record aggregated during processRow: the index of the page
the break left, the trailing y on that page and the leading y on the next
page. -/
structure BreakDesc where
  prevPage : Nat
  prevY : ℚ
  y : ℚ
  deriving DecidableEq, Repr

/-- storePageBreakData: merge one pageChanged event into the pageBreaks list
of the row, keyed by prevPage — the first descriptor with the same prevPage
keeps the maximum prevY and the minimum y, and an unseen prevPage is
appended (the self max/min of the source is the identity). -/
def storePageBreakData : List BreakDesc → BreakDesc → List BreakDesc
  | [], data => [data]
  | desc :: rest, data =>
    if desc.prevPage = data.prevPage then
      { desc with prevY := max desc.prevY data.prevY, y := min desc.y data.y } :: rest
    else
      desc :: storePageBreakData rest data

/-- The pageBreaks list processRow returns: the fold of storePageBreakData
over the pageChanged events the page writer reported during the row, in
order. -/
def processRowPageBreaks (events : List BreakDesc) : List BreakDesc :=
  events.foldl storePageBreakData []

/-- A table cell as seen by the row-span bookkeeping of processRow. -/
structure TCell where
  rowSpan : Option Nat := none
  span : Bool := false
  cellId : Nat := 0
  deriving DecidableEq, Repr

/-- getEndingCell(column, columnIndex) from processRow: resolve the ending
cell of a row-span as tableBody[tableRow + rowSpan - 1][columnIndex], or
raise the configuration error when the ending row falls outside the table
body.  A cell without a row-span (or with a falsy / not-greater-than-one
one) resolves to null. -/
def getEndingCell (tableBody : List (List TCell)) (tableRow : Nat)
    (column : TCell) (columnIndex : Nat) : Except String (Option TCell) :=
  match column.rowSpan with
  | none => .ok none
  | some rs =>
    if 1 < rs then
      if tableBody.length ≤ tableRow + rs - 1 then
        .error ("Row span for column " ++ toString columnIndex ++
          " (with indexes starting from 0) exceeded row count")
      else
        .ok ((tableBody.getD (tableRow + rs - 1) []).get? columnIndex)
    else .ok none

/-- A column record carrying the computed width (the field written by the
column-width distributor). -/
structure ColDef where
  calcWidth : ℚ
  deriving DecidableEq, Repr

/-- JavaScript addition where either operand may be the NaN produced by an
out-of-bounds array read (modelled as none). -/
def jsAdd : Option ℚ → Option ℚ → Option ℚ
  | some x, some y => some (x + y)
  | _, _ => none

/-- gapArray(gap) from processColumns: null for an absent or zero gap, else
a zero followed by one gap entry per remaining column. -/
def gapArray (gap : Option ℚ) (ncols : Nat) : Option (List ℚ) :=
  match gap with
  | none => none
  | some g => if g = 0 then none else some (0 :: List.replicate (ncols - 1) g)

/-- One step per additional spanned column of the column-span accumulation
in processRow: reading a column record past the widths array throws, a
null gaps array throws, and a missing gap entry yields NaN which propagates
through the sum. -/
def spanSteps (widths : List ColDef) (gaps : Option (List ℚ)) :
    Nat → Nat → Option ℚ → Except String (Option ℚ)
  | _, 0, acc => .ok acc
  | idx, n + 1, acc =>
    match widths.get? idx with
    | none => .error "TypeError: cannot read _calcWidth of undefined"
    | some col =>
      match gaps with
      | none => .error "TypeError: cannot read an element of null"
      | some gs =>
        spanSteps widths (some gs) (idx + 1) n
          (jsAdd (jsAdd acc (some col.calcWidth)) (gs.get? idx))

/-- The column-span width accumulation of processRow: the initial width is
the calcWidth of the starting column, then one step per additional spanned
column. -/
def colSpanWidth (widths : List ColDef) (gaps : Option (List ℚ)) (i0 span : Nat) :
    Except String (Option ℚ) :=
  match widths.get? i0 with
  | none => .error "TypeError: cannot read _calcWidth of undefined"
  | some c0 => spanSteps widths gaps (i0 + 1) (span - 1) (some c0.calcWidth)

/-- JavaScript truthiness of an optional string field: absent and the empty
string are falsy. -/
def strTruthy : Option (List Char) → Bool
  | none => false
  | some s => !s.isEmpty

/-- A document node as the processNode dispatcher inspects it: flags mirror
the truthiness of the corresponding fields (arrays and objects are truthy
whenever present), text is tested against undefined only, and image and qr
are strings whose empty value is falsy. -/
structure DNode where
  stack : Bool := false
  columns : Bool := false
  ul : Bool := false
  ol : Bool := false
  table : Bool := false
  text : Option (List Char) := none
  toc : Bool := false
  image : Option (List Char) := none
  canvas : Bool := false
  qr : Option (List Char) := none
  span : Bool := false
  deriving DecidableEq, Repr

/-- The handler selected by the processNode dispatcher. -/
inductive Handler where
  | stackH | columnsH | ulH | olH | tableH | textH | tocH | imageH | canvasH | qrH | spanH
  deriving DecidableEq, Repr

/-- The processNode dispatcher: the if-chain on node kind; a node matching
no kind and not marked as a span placeholder raises the structural error
whose message carries the stringified node. -/
def processNodeDispatch (stringify : DNode → String) (node : DNode) :
    Except String Handler :=
  if node.stack then .ok .stackH
  else if node.columns then .ok .columnsH
  else if node.ul then .ok .ulH
  else if node.ol then .ok .olH
  else if node.table then .ok .tableH
  else if node.text.isSome then .ok .textH
  else if node.toc then .ok .tocH
  else if strTruthy node.image then .ok .imageH
  else if node.canvas then .ok .canvasH
  else if strTruthy node.qr then .ok .qrH
  else if !node.span then
    .error ("Unrecognized document structure: " ++ stringify node)
  else .ok .spanH

/-- A node matches a recognized kind exactly when one of the dispatch tests
preceding the span check succeeds. -/
def recognizedKind (node : DNode) : Bool :=
  node.stack || node.columns || node.ul || node.ol || node.table ||
    node.text.isSome || node.toc || strTruthy node.image || node.canvas ||
    strTruthy node.qr

/-- One iteration of the watermark binary search in addWatermark: probe the
midpoint c, narrow the bounds to the half containing the target; when the
probe measures exactly the target neither branch fires and the state is
unchanged. -/
def getSizeStep (measure : ℚ → ℚ) (targetWidth : ℚ) (a b c : ℚ) : ℚ × ℚ × ℚ :=
  if targetWidth < measure c then (a, c, (a + c) / 2)
  else if measure c < targetWidth then (c, b, (c + b) / 2)
  else (a, b, c)

/-- The watermark binary-search loop, while Math.abs(a - b) > 1, made total
by fuel (none models a spin that has not exited within the fuel). -/
def getSizeLoop (measure : ℚ → ℚ) (targetWidth : ℚ) :
    Nat → ℚ → ℚ → ℚ → Option (ℚ × ℚ × ℚ)
  | 0, _, _, _ => none
  | fuel + 1, a, b, c =>
    if |a - b| ≤ 1 then some (a, b, c)
    else
      getSizeLoop measure targetWidth fuel (getSizeStep measure targetWidth a b c).1
        (getSizeStep measure targetWidth a b c).2.1
        (getSizeStep measure targetWidth a b c).2.2

/-- getSize: run the search from the initial bounds 0 and 1000 and return
the final fontSize c. -/
def getSize (measure : ℚ → ℚ) (targetWidth : ℚ) (fuel : Nat) : Option ℚ :=
  (getSizeLoop measure targetWidth fuel 0 1000 ((0 + 1000) / 2)).map fun r => r.2.2

/-- The pageBreak mark of a node: unset, before, or after. -/
inductive PBMark where
  | normal | before | after
  deriving DecidableEq, Repr

/-- A node as seen by the convergence loop: its persistent page-break marks
and scan bookkeeping, its coordinates together with the pristine originals
captured for resetXY, its recorded positions and the payload fields copied
into nodeInfo. -/
structure LNode where
  pageBreak : PBMark := .normal
  pageBreakCalculated : Bool := false
  x : ℚ := 0
  y : ℚ := 0
  origX : ℚ := 0
  origY : ℚ := 0
  positions : List Position := []
  stackFlag : Bool := false
  payload : Nat := 0
  deriving DecidableEq, Repr

/-- The summary handed to the page-break predicate for one node. -/
structure NodeInfo where
  payload : Nat
  startPosition : Position
  pageNumbers : List Nat
  pages : Nat
  stack : Bool
  deriving DecidableEq, Repr

/-- Keep the first occurrence of each element, as the JavaScript dedup
filter on indexOf does; seen accumulates the values already emitted. -/
def dedupFirstGo (seen : List Nat) : List Nat → List Nat
  | [] => []
  | x :: xs =>
    if x ∈ seen then dedupFirstGo seen xs
    else x :: dedupFirstGo (x :: seen) xs

/-- The dedup of the pageNumbers computation, keeping first occurrences in
order. -/
def dedupFirst (l : List Nat) : List Nat := dedupFirstGo [] l

/-- The nodeInfo summary built by addPageBreaksIfNecessary for one node:
its first recorded position, the distinct page numbers its positions touch
(first occurrences kept, in order), the page count so far, and the stack
flag. -/
def mkNodeInfo (pages : Nat) (n : LNode) : NodeInfo :=
  { payload := n.payload,
    startPosition := n.positions.headD { pageNumber := 0 },
    pageNumbers := dedupFirst (n.positions.map fun p => p.pageNumber),
    pages := pages,
    stack := n.stackFlag }

/-- The four summary lists handed to the page-break predicate. -/
structure PredArgs where
  nodeInfo : NodeInfo
  followingNodesOnPage : List NodeInfo
  nodesOnNextPage : List NodeInfo
  previousNodesOnPage : List NodeInfo
  deriving DecidableEq, Repr

/-- The default nodeInfo used for an out-of-range lookup (never reached on
the indices the scan produces). -/
def defaultInfo : NodeInfo :=
  { payload := 0, startPosition := { pageNumber := 0 }, pageNumbers := [],
    pages := 0, stack := false }

/-- The arguments the scan passes to the predicate for the node at position
k of the filtered list: the node summary, the later nodes whose pages
include its starting page, the later nodes whose pages include the next
page, and the earlier nodes whose pages include its starting page. -/
def predArgsAt (infos : List NodeInfo) (k : Nat) : PredArgs :=
  { nodeInfo := infos.getD k defaultInfo,
    followingNodesOnPage := (infos.drop (k + 1)).filter fun n0 =>
      n0.pageNumbers.contains ((infos.getD k defaultInfo).pageNumbers.headD 0),
    nodesOnNextPage := (infos.drop (k + 1)).filter fun n0 =>
      n0.pageNumbers.contains ((infos.getD k defaultInfo).pageNumbers.headD 0 + 1),
    previousNodesOnPage := (infos.take k).filter fun n0 =>
      n0.pageNumbers.contains ((infos.getD k defaultInfo).pageNumbers.headD 0) }

/-- One full scan of the some-callback in addPageBreaksIfNecessary over the
filtered node list.  rest holds pairs of the position in the filtered list
and the index into the full document; the predicate also receives a global
invocation counter (JavaScript predicates may keep state, and the claims
constrain how often the predicate may answer true across the whole run).
The scan marks each examined node as calculated, and on a positive answer
marks the node as broken-before and aborts, returning its document index,
the updated document and the final counter. -/
def scanGo (pred : Nat → PredArgs → Bool) (infos : List NodeInfo) :
    List (Nat × Nat) → List LNode → Nat → Option Nat × List LNode × Nat
  | [], doc, counter => (none, doc, counter)
  | (k, i) :: rest, doc, counter =>
    if (doc.getD i {}).pageBreak ≠ PBMark.before ∧
        (doc.getD i {}).pageBreakCalculated = false then
      if pred counter (predArgsAt infos k) then
        (some i,
         doc.set i { doc.getD i {} with pageBreakCalculated := true, pageBreak := .before },
         counter + 1)
      else
        scanGo pred infos rest (doc.set i { doc.getD i {} with pageBreakCalculated := true })
          (counter + 1)
    else
      scanGo pred infos rest doc counter

/-- The indices of the nodes that recorded at least one position, in
document order (the filter at the top of addPageBreaksIfNecessary). -/
def filteredIndices (doc : List LNode) : List Nat :=
  (List.range doc.length).filter fun i => !(doc.getD i {}).positions.isEmpty

/-- addPageBreaksIfNecessary: no-op without a predicate; otherwise build the
summaries of the position-bearing nodes and run the scan. -/
def addPageBreaksIfNecessary (pred : Option (Nat → PredArgs → Bool))
    (doc : List LNode) (pages : List Nat) (counter : Nat) :
    Option Nat × List LNode × Nat :=
  match pred with
  | none => (none, doc, counter)
  | some p =>
    let idxs := filteredIndices doc
    let infos := idxs.map fun i => mkNodeInfo pages.length (doc.getD i {})
    scanGo p infos idxs.enum doc counter

/-- Abstraction of one full tryLayoutDocument traversal: from the persistent
page-break marks of the nodes it determines the positions each node records,
the coordinates the layout leaves on it, and the resulting page list.  The
traversal is deterministic in those marks, which are all the convergence
loop changes between attempts. -/
structure Oracle where
  positionsOf : List PBMark → Nat → List Position
  coordsOf : List PBMark → Nat → ℚ × ℚ
  pagesOf : List PBMark → List Nat

/-- One traversal attempt: every node gets fresh positions and coordinates
determined by the current marks (decorateNode resets positions at visit
time), all other node state persists. -/
def tryLayout (oracle : Oracle) (doc : List LNode) : List LNode × List Nat :=
  ((doc.mapIdx fun i n =>
      { n with
        positions := oracle.positionsOf (doc.map fun m => m.pageBreak) i,
        x := (oracle.coordsOf (doc.map fun m => m.pageBreak) i).1,
        y := (oracle.coordsOf (doc.map fun m => m.pageBreak) i).2 }),
   oracle.pagesOf (doc.map fun m => m.pageBreak))

/-- resetXYs: restore the pristine coordinates of every visited node. -/
def resetAll (doc : List LNode) : List LNode :=
  doc.map fun n => { n with x := n.origX, y := n.origY }

/-- The while loop of layoutDocument, instrumented with the number of
traversal attempts performed so far (the caller starts it at one, after the
initial traversal).  Returns the final page list, the attempt count and the
final node states; none when the fuel runs out before the scan settles. -/
def layoutLoop (oracle : Oracle) (pred : Option (Nat → PredArgs → Bool)) :
    Nat → List LNode → List Nat → Nat → Nat → Option (List Nat × Nat × List LNode)
  | 0, _, _, _, _ => none
  | fuel + 1, doc, pages, counter, attempts =>
    match addPageBreaksIfNecessary pred doc pages counter with
    | (none, doc1, _) => some (pages, attempts, doc1)
    | (some _, doc1, counter1) =>
      layoutLoop oracle pred fuel (tryLayout oracle (resetAll doc1)).1
        (tryLayout oracle (resetAll doc1)).2 counter1 (attempts + 1)

/-- layoutDocument: one initial traversal, then re-scan and re-run until a
full scan requests no break. -/
def layoutDocument (oracle : Oracle) (pred : Option (Nat → PredArgs → Bool))
    (fuel : Nat) (doc : List LNode) : Option (List Nat × Nat × List LNode) :=
  layoutLoop oracle pred fuel (tryLayout oracle doc).1 (tryLayout oracle doc).2 0 1

/-- A concrete text-metrics function for witnesses: the width of a run is
its character count. -/
def cWf : List Char → Nat → ℚ → ℚ → Nat → ℚ := fun t _ _ _ _ => (t.length : ℚ)

/-- A concrete collaborator environment for witnesses. -/
def cEnv : TextEnv :=
  { widthOfString := cWf,
    hasEnoughSpaceForInline := fun _ _ _ => true,
    getAvailableWidth := fun _ => 2,
    maxWidth := 10,
    getHeight := fun _ => 1,
    addLine := fun _ => { pageNumber := 1 } }

/-- A concrete four-character run of width four for the hard-wrap witness. -/
def cInline : Inline :=
  { text := ['a', 'b', 'c', 'd'], width := 4, font := 0, fontSize := 12,
    characterSpacing := 0, fontFeatures := 0, noWrap := false, noNewLine := false }

/-- The head half the hard-wrap witness keeps on the line. -/
def cHead : Inline := { cInline with text := ['a', 'b'], width := 2 }

/-- The tail half the hard-wrap witness re-queues. -/
def cTail : Inline := { cInline with text := ['c', 'd'], width := 2 }

/-- An empty line of the witness width. -/
def cLine : LineM := { maxWidth := 10 }

/-- C2: when buildNextLine hard-wraps a run of length greater than one at
the computed character budget, the head kept on the line and the tail
re-queued at the front of the pending queue concatenate exactly to the
original text, neither half is empty, the split offset is the computed
budget with 1 ≤ k < n, and both halves are re-measured through the
text-metrics collaborator. -/
theorem buildNextLine_hardWrap_split (env : TextEnv) (inline headI tailI : Inline)
    (rest : List Inline) (line : LineM) (force : Bool)
    (hspace : (env.hasEnoughSpaceForInline line inline rest || force) = true)
    (hsplit : hardWrapSplit env.widthOfString (env.getAvailableWidth line) inline =
      some (headI, tailI)) :
    buildLoop env (inline :: rest) line force =
      buildLoop env (tailI :: rest) (line.addInline headI) false ∧
    headI.text ++ tailI.text = inline.text ∧
    headI.text ≠ [] ∧ tailI.text ≠ [] ∧
    headI.text.length = wrapChars (env.getAvailableWidth line) inline ∧
    1 ≤ headI.text.length ∧ headI.text.length < inline.text.length ∧
    headI.width = env.widthOfString headI.text inline.font inline.fontSize
      inline.characterSpacing inline.fontFeatures ∧
    tailI.width = env.widthOfString tailI.text inline.font inline.fontSize
      inline.characterSpacing inline.fontFeatures := by
  obtain ⟨k, hkdef, hk1, hklt, hhead, htail⟩ := hardWrapSplit_eq_some hsplit
  have hloop : buildLoop env (inline :: rest) line force =
      buildLoop env (tailI :: rest) (line.addInline headI) false := by
    rw [buildLoop]
    rw [hspace]
    simp only [if_true]
    rw [hsplit]
  have hlen : headI.text.length = k := by
    rw [hhead]
    simpa using Nat.min_eq_left (Nat.le_of_lt hklt)
  refine ⟨hloop, ?_, ?_, ?_, ?_, ?_, ?_, ?_, ?_⟩
  · rw [hhead, htail]
    exact List.take_append_drop k inline.text
  · rw [hhead]
    intro hnil
    have := congrArg List.length hnil
    simp [Nat.min_eq_left (Nat.le_of_lt hklt)] at this
    omega
  · rw [htail]
    intro hnil
    have := congrArg List.length hnil
    simp at this
    omega
  · rw [hlen, hkdef]
  · omega
  · omega
  · rw [hhead]
  · rw [htail]

theorem cWrapChars : wrapChars 2 cInline = 2 := by
  have h : (2 : ℚ) / (cInline.width / (cInline.text.length : ℚ)) = 2 := by
    norm_num [cInline]
  unfold wrapChars
  rw [show ((cInline.text.length : ℚ)) = ((4 : ℕ) : ℚ) by simp [cInline]] at h ⊢
  rw [h]
  have h2 : jsFloor 2 = 2 := by
    unfold jsFloor
    simp
  rw [h2]
  simp [cInline]

theorem cSplitEq : hardWrapSplit cWf 2 cInline = some (cHead, cTail) := by
  unfold hardWrapSplit
  rw [if_pos ⟨rfl, by simp [cInline], by norm_num [cInline]⟩, if_pos (by rw [cWrapChars]; simp [cInline])]
  rw [cWrapChars]
  rfl

/-- Witness for C2 at a concrete oversized run: the split happens at budget
two and the halves recombine to the original text. -/
theorem buildNextLine_hardWrap_split_witness :
    buildLoop cEnv [cInline] cLine false =
      buildLoop cEnv [cTail] (cLine.addInline cHead) false ∧
    cHead.text ++ cTail.text = cInline.text := by
  have h := buildNextLine_hardWrap_split cEnv cInline cHead cTail [] cLine false
    rfl cSplitEq
  exact ⟨h.1, h.2.1⟩

/-- C7: buildNextLine returns none exactly when the pending queue is empty,
and a produced line is marked as the last line of the paragraph exactly when
the queue is empty once the line is built. -/
theorem buildNextLine_none_iff_empty (env : TextEnv) (queue : List Inline) :
    (buildNextLine env queue = none ↔ queue = []) ∧
    ∀ line rest, buildNextLine env queue = some (line, rest) →
      (line.lastLineInParagraph = true ↔ rest = []) := by
  cases queue with
  | nil =>
    refine ⟨by simp [buildNextLine], ?_⟩
    intro line rest h
    simp [buildNextLine] at h
  | cons a as =>
    refine ⟨by simp [buildNextLine], ?_⟩
    intro line rest h
    simp only [buildNextLine] at h
    obtain ⟨hline, hrest⟩ := Prod.mk.injEq _ _ _ _ ▸ Option.some.injEq _ _ ▸ h
    rw [← hline, ← hrest]
    simp [List.isEmpty_iff]

/-- Witness for C7: the empty queue yields no line. -/
theorem buildNextLine_none_iff_empty_witness :
    buildNextLine cEnv [] = none :=
  (buildNextLine_none_iff_empty cEnv []).1.mpr rfl

/-- C5 (evaluation at the failing input): a text leaf with an empty pending
queue and no reference fields completes with an empty result, but with a
table-of-contents item reference or a page reference present the reference
assignment dereferences the null line, so processLeaf fails instead of
returning the empty result the claim describes. -/
theorem processLeaf_empty_queue_eval :
    processLeaf cEnv 3 { inlines := [], tocItemRef := some 0 } = none ∧
    processLeaf cEnv 3 { inlines := [], pageRef := some 0 } = none ∧
    processLeaf cEnv 3 { inlines := [] } = some [] := by
  decide

/-- C9: for a cell declaring a row-span greater than one at a given row and
column, processRow resolves the ending cell at tableBody[row + span - 1]
[column]; when that row index falls outside the body the configuration
error naming the column index is raised, and otherwise the lookup succeeds
without error. -/
theorem getEndingCell_rowSpan (tableBody : List (List TCell)) (tableRow : Nat)
    (column : TCell) (columnIndex rs : Nat)
    (hrs : column.rowSpan = some rs) (h1 : 1 < rs) :
    (tableBody.length ≤ tableRow + rs - 1 →
      getEndingCell tableBody tableRow column columnIndex =
        .error ("Row span for column " ++ toString columnIndex ++
          " (with indexes starting from 0) exceeded row count")) ∧
    (tableRow + rs - 1 < tableBody.length →
      getEndingCell tableBody tableRow column columnIndex =
        .ok ((tableBody.getD (tableRow + rs - 1) []).get? columnIndex)) := by
  simp only [getEndingCell, hrs]
  constructor
  · intro hout
    rw [if_pos h1, if_pos hout]
  · intro hin
    rw [if_pos h1, if_neg (by omega)]

/-- Witness for C9: a row-span of three starting at row zero of a two-row
body raises the error; a row-span of two succeeds. -/
theorem getEndingCell_rowSpan_witness :
    getEndingCell [[{ cellId := 0 }, { cellId := 1 }], [{ span := true }, { cellId := 3 }]]
        0 { rowSpan := some 3 } 0 =
      .error ("Row span for column " ++ toString 0 ++
        " (with indexes starting from 0) exceeded row count") ∧
    getEndingCell [[{ cellId := 0 }, { cellId := 1 }], [{ span := true }, { cellId := 3 }]]
        0 { rowSpan := some 2 } 0 = .ok (some { span := true }) := by
  constructor
  · exact (getEndingCell_rowSpan _ 0 _ 0 3 rfl (by omega)).1 (by decide)
  · have h := (getEndingCell_rowSpan
      [[{ cellId := 0 }, { cellId := 1 }], [{ span := true }, { cellId := 3 }]]
      0 { rowSpan := some 2 } 0 2 rfl (by omega)).2 (by decide)
    rw [h]
    rfl

set_option maxHeartbeats 1000000 in
/-- C8: a node matching none of the recognized kinds and not marked as a
layout-internal span placeholder makes the dispatcher raise the fatal
structural error whose message carries the stringified snapshot of the
node; a node matching a recognized kind never produces that error in the
dispatcher. -/
theorem processNode_structural_error (stringify : DNode → String) (node : DNode) :
    (recognizedKind node = false → node.span = false →
      processNodeDispatch stringify node =
        Except.error ("Unrecognized document structure: " ++ stringify node)) ∧
    (recognizedKind node = true →
      ∀ msg, processNodeDispatch stringify node ≠ Except.error msg) := by
  constructor
  · intro hrec hspan
    simp only [recognizedKind, Bool.or_eq_false_iff] at hrec
    obtain ⟨⟨⟨⟨⟨⟨⟨⟨⟨h1, h2⟩, h3⟩, h4⟩, h5⟩, h6⟩, h7⟩, h8⟩, h9⟩, h10⟩ := hrec
    simp [processNodeDispatch, h1, h2, h3, h4, h5, h6, h7, h8, h9, h10, hspan]
  · intro hrec msg hcontra
    unfold processNodeDispatch at hcontra
    repeat' split at hcontra
    all_goals first
      | exact Except.noConfusion hcontra
      | simp_all [recognizedKind]

/-- Witness for C8: a bare node raises the structural error and a stack
node does not. -/
theorem processNode_structural_error_witness :
    processNodeDispatch (fun _ => "snapshot") {} =
      Except.error ("Unrecognized document structure: " ++ "snapshot") ∧
    processNodeDispatch (fun _ => "snapshot") { stack := true } ≠
      Except.error "boom" := by
  constructor
  · exact (processNode_structural_error (fun _ => "snapshot") {}).1 rfl rfl
  · exact (processNode_structural_error (fun _ => "snapshot") { stack := true }).2 rfl "boom"

theorem spanSteps_ok (widths : List ColDef) (gs : List ℚ) :
    ∀ (n idx : Nat) (acc : ℚ), idx + n ≤ widths.length → idx + n ≤ gs.length →
      spanSteps widths (some gs) idx n (some acc) =
        .ok (some (acc +
          ((((List.range n).map fun j => (widths.getD (idx + j) ⟨0⟩).calcWidth).sum +
            ((List.range n).map fun j => gs.getD (idx + j) 0).sum)))) := by
  intro n
  induction n with
  | zero =>
    intro idx acc h1 h2
    simp [spanSteps]
  | succ m ih =>
    intro idx acc h1 h2
    have hiw : idx < widths.length := by omega
    have hig : idx < gs.length := by omega
    have hw : widths.get? idx = some (widths.getD idx ⟨0⟩) := by
      rw [List.getD_eq_getElem?_getD, List.get?_eq_getElem?]
      cases hx : widths[idx]? with
      | none => exact absurd (List.getElem?_eq_none_iff.mp hx) (by omega)
      | some v => rfl
    have hg : gs.get? idx = some (gs.getD idx 0) := by
      rw [List.getD_eq_getElem?_getD, List.get?_eq_getElem?]
      cases hx : gs[idx]? with
      | none => exact absurd (List.getElem?_eq_none_iff.mp hx) (by omega)
      | some v => rfl
    rw [spanSteps, hw]
    simp only
    rw [hg]
    simp only [jsAdd]
    rw [ih (idx + 1) _ (by omega) (by omega)]
    congr 2
    rw [List.range_succ_eq_map]
    simp only [List.map_cons, List.sum_cons, List.map_map]
    have hwm : ((List.range m).map fun j => (widths.getD (idx + 1 + j) ⟨0⟩).calcWidth) =
        (List.range m).map ((fun j => (widths.getD (idx + j) ⟨0⟩).calcWidth) ∘ Nat.succ) := by
      apply List.map_congr_left
      intro j _
      simp only [Function.comp]
      rw [show idx + 1 + j = idx + (j + 1) by omega]
    have hgm : ((List.range m).map fun j => gs.getD (idx + 1 + j) 0) =
        (List.range m).map ((fun j => gs.getD (idx + j) 0) ∘ Nat.succ) := by
      apply List.map_congr_left
      intro j _
      simp only [Function.comp]
      rw [show idx + 1 + j = idx + (j + 1) by omega]
    rw [hwm, hgm]
    simp only [Nat.add_zero]
    ring

/-- C10: with a null gap array (as processColumns produces for an absent or
zero column gap) a column span greater than one makes the width
accumulation of processRow fail with a TypeError instead of laying out the
row; with a gap array present, the spanned cell width is the sum of the
spanned columns computed widths plus the intervening gap entries. -/
theorem colSpanWidth_spec (widths : List ColDef) (gs : List ℚ) (i0 span n : Nat) :
    (gapArray none n = none) ∧
    (gapArray (some 0) n = none) ∧
    (1 < span → i0 + 1 < widths.length →
      ∃ e, colSpanWidth widths none i0 span = Except.error e) ∧
    (1 ≤ span → i0 + span ≤ widths.length → i0 + span ≤ gs.length →
      colSpanWidth widths (some gs) i0 span =
        .ok (some
          (((List.range span).map fun j => (widths.getD (i0 + j) ⟨0⟩).calcWidth).sum +
           ((List.range (span - 1)).map fun j => gs.getD (i0 + 1 + j) 0).sum))) := by
  refine ⟨rfl, by simp [gapArray], ?_, ?_⟩
  · intro hspan hlen
    obtain ⟨m, hm⟩ : ∃ m, span - 1 = m + 1 := ⟨span - 2, by omega⟩
    have hw0 : widths.get? i0 = some (widths.getD i0 ⟨0⟩) := by
      rw [List.getD_eq_getElem?_getD, List.get?_eq_getElem?]
      cases hx : widths[i0]? with
      | none => exact absurd (List.getElem?_eq_none_iff.mp hx) (by omega)
      | some v => rfl
    have hw1 : widths.get? (i0 + 1) = some (widths.getD (i0 + 1) ⟨0⟩) := by
      rw [List.getD_eq_getElem?_getD, List.get?_eq_getElem?]
      cases hx : widths[i0 + 1]? with
      | none => exact absurd (List.getElem?_eq_none_iff.mp hx) (by omega)
      | some v => rfl
    refine ⟨"TypeError: cannot read an element of null", ?_⟩
    unfold colSpanWidth
    rw [hw0]
    simp only
    rw [hm, spanSteps, hw1]
  · intro hspan hlenw hleng
    obtain ⟨m, hm⟩ : ∃ m, span = m + 1 := ⟨span - 1, by omega⟩
    subst hm
    have hw0 : widths.get? i0 = some (widths.getD i0 ⟨0⟩) := by
      rw [List.getD_eq_getElem?_getD, List.get?_eq_getElem?]
      cases hx : widths[i0]? with
      | none => exact absurd (List.getElem?_eq_none_iff.mp hx) (by omega)
      | some v => rfl
    unfold colSpanWidth
    rw [hw0]
    simp only [Nat.add_sub_cancel]
    rw [spanSteps_ok widths gs m (i0 + 1) _ (by omega) (by omega)]
    congr 2
    rw [List.range_succ_eq_map]
    simp only [List.map_cons, List.sum_cons, List.map_map]
    have hwm : ((List.range m).map fun j => (widths.getD (i0 + 1 + j) ⟨0⟩).calcWidth) =
        (List.range m).map ((fun j => (widths.getD (i0 + j) ⟨0⟩).calcWidth) ∘ Nat.succ) := by
      apply List.map_congr_left
      intro j _
      simp only [Function.comp]
      rw [show i0 + 1 + j = i0 + (j + 1) by omega]
    rw [hwm]
    simp only [Nat.add_zero]
    ring

/-- Three concrete column records for the column-span witness. -/
def cWidths : List ColDef := [⟨10⟩, ⟨20⟩, ⟨30⟩]

/-- A concrete gap array for the column-span witness. -/
def cGaps : List ℚ := [0, 5, 5]

/-- Witness for C10: a two-column span over widths ten and twenty with gap
five sums to the spanned width, and the same span with a null gap array
fails. -/
theorem colSpanWidth_spec_witness :
    (∃ e, colSpanWidth cWidths none 0 2 = Except.error e) ∧
    colSpanWidth cWidths (some cGaps) 0 2 =
      .ok (some
        (((List.range 2).map fun j => (cWidths.getD (0 + j) ⟨0⟩).calcWidth).sum +
         ((List.range (2 - 1)).map fun j => cGaps.getD (0 + 1 + j) 0).sum)) := by
  constructor
  · exact (colSpanWidth_spec cWidths cGaps 0 2 0).2.2.1 (by omega) (by decide)
  · exact (colSpanWidth_spec cWidths cGaps 0 2 0).2.2.2 (by omega) (by decide) (by decide)

theorem getSizeLoop_inv (measure : ℚ → ℚ) (t : ℚ) (hne : ∀ x, measure x ≠ t) :
    ∀ (k : Nat) (a b : ℚ), measure a < t → t < measure b → 0 < b - a →
      b - a ≤ 2 ^ k →
      ∃ a' b' : ℚ,
        getSizeLoop measure t (k + 1) a b ((a + b) / 2) =
          some (a', b', (a' + b') / 2) ∧
        |a' - b'| ≤ 1 ∧ measure a' < t ∧ t < measure b' ∧ 0 < b' - a' := by
  intro k
  induction k with
  | zero =>
    intro a b ha hb hpos hw
    refine ⟨a, b, ?_, ?_, ha, hb, hpos⟩
    · rw [getSizeLoop, if_pos (by rw [abs_sub_comm, abs_of_pos hpos]; simpa using hw)]
    · rw [abs_sub_comm, abs_of_pos hpos]; simpa using hw
  | succ k ih =>
    intro a b ha hb hpos hw
    by_cases hab : |a - b| ≤ 1
    · exact ⟨a, b, by rw [getSizeLoop, if_pos hab], hab, ha, hb, hpos⟩
    · rw [getSizeLoop, if_neg hab]
      rcases lt_trichotomy (measure ((a + b) / 2)) t with hlt | heq | hgt
      · have hstep : getSizeStep measure t a b ((a + b) / 2) =
            ((a + b) / 2, b, ((a + b) / 2 + b) / 2) := by
          rw [getSizeStep, if_neg (by linarith), if_pos hlt]
        rw [hstep]
        exact ih ((a + b) / 2) b hlt hb (by linarith)
          (by rw [pow_succ] at hw; linarith)
      · exact absurd heq (hne _)
      · have hstep : getSizeStep measure t a b ((a + b) / 2) =
            (a, (a + b) / 2, (a + (a + b) / 2) / 2) := by
          rw [getSizeStep, if_pos hgt]
        rw [hstep]
        exact ih a ((a + b) / 2) ha hgt (by linarith)
          (by rw [pow_succ] at hw; linarith)

/-- C6 (amended): for a monotone measurement that never measures exactly the
target and a target strictly between the measurements at font sizes zero and
one thousand, the watermark binary search terminates within eleven
iterations with the interval no wider than the loop threshold, and the
returned font size is the midpoint of a final interval whose measured
endpoints bracket the target and whose measured midpoint lies between
them. -/
theorem getSizeLoop_converges (measure : ℚ → ℚ) (t : ℚ)
    (hmono : Monotone measure) (hne : ∀ x, measure x ≠ t)
    (h0 : measure 0 < t) (h1 : t < measure 1000) :
    ∃ a' b' : ℚ,
      getSizeLoop measure t 11 0 1000 ((0 + 1000) / 2) = some (a', b', (a' + b') / 2) ∧
      |a' - b'| ≤ 1 ∧
      a' ≤ (a' + b') / 2 ∧ (a' + b') / 2 ≤ b' ∧
      measure a' < t ∧ t < measure b' ∧
      measure a' ≤ measure ((a' + b') / 2) ∧ measure ((a' + b') / 2) ≤ measure b' := by
  obtain ⟨a', b', hloop, habs, hma, hmb, hpos⟩ :=
    getSizeLoop_inv measure t hne 10 0 1000 h0 h1 (by norm_num) (by norm_num)
  exact ⟨a', b', hloop, habs, by linarith, by linarith, hma, hmb,
    hmono (by linarith), hmono (by linarith)⟩

/-- The identity measurement used by the counterexample. -/
def idMeasure : ℚ → ℚ := fun x => x

theorem getSizeLoop_stuck_aux :
    ∀ n, getSizeLoop idMeasure 500 n 0 1000 ((0 + 1000) / 2) = none := by
  have hcond : ¬(|(0 : ℚ) - 1000| ≤ 1) := by norm_num
  have hstep : getSizeStep idMeasure 500 0 1000 ((0 + 1000) / 2) =
      (0, 1000, (0 + 1000) / 2) := by
    rw [getSizeStep, if_neg (by norm_num [idMeasure]), if_neg (by norm_num [idMeasure])]
  intro n
  induction n with
  | zero => rfl
  | succ n ih =>
    rw [getSizeLoop, if_neg hcond, hstep]
    exact ih

/-- Counterexample for C6: the identity measurement is monotone and the
target five hundred lies strictly between the measurements at zero and one
thousand, yet the very first probe measures exactly the target, neither
branch narrows the interval, the loop condition still holds, and the loop
never exits (none for any amount of fuel, shown here at fifty
iterations). -/
theorem getSizeLoop_counterexample :
    Monotone idMeasure ∧
    idMeasure 0 < 500 ∧ (500 : ℚ) < idMeasure 1000 ∧
    getSizeStep idMeasure 500 0 1000 ((0 + 1000) / 2) = (0, 1000, (0 + 1000) / 2) ∧
    ¬(|(0 : ℚ) - 1000| ≤ 1) ∧
    getSizeLoop idMeasure 500 50 0 1000 ((0 + 1000) / 2) = none := by
  refine ⟨fun _ _ h => h, by norm_num [idMeasure], by norm_num [idMeasure], ?_, by norm_num, ?_⟩
  · rw [getSizeStep, if_neg (by norm_num [idMeasure]), if_neg (by norm_num [idMeasure])]
  · exact getSizeLoop_stuck_aux 50

/-- The step measurement used by the C6 witness: zero below five hundred,
one thousand at or above it; monotone and never equal to the target five
hundred. -/
def stepMeasure : ℚ → ℚ := fun x => if x < 500 then 0 else 1000

theorem stepMeasure_mono : Monotone stepMeasure := by
  intro a b hab
  unfold stepMeasure
  split
  · split
    · exact le_refl 0
    · norm_num
  · split
    · next ha hb => exact absurd (lt_of_le_of_lt hab hb) ha
    · exact le_refl 1000

theorem stepMeasure_ne (x : ℚ) : stepMeasure x ≠ 500 := by
  unfold stepMeasure
  split <;> norm_num

/-- Witness for C6 at the step measurement and target five hundred. -/
theorem getSizeLoop_converges_witness :
    ∃ a' b' : ℚ,
      getSizeLoop stepMeasure 500 11 0 1000 ((0 + 1000) / 2) = some (a', b', (a' + b') / 2) ∧
      |a' - b'| ≤ 1 ∧
      a' ≤ (a' + b') / 2 ∧ (a' + b') / 2 ≤ b' ∧
      stepMeasure a' < 500 ∧ (500 : ℚ) < stepMeasure b' ∧
      stepMeasure a' ≤ stepMeasure ((a' + b') / 2) ∧
      stepMeasure ((a' + b') / 2) ≤ stepMeasure b' :=
  getSizeLoop_converges stepMeasure 500 stepMeasure_mono stepMeasure_ne
    (by norm_num [stepMeasure]) (by norm_num [stepMeasure])

theorem storePBD_pages (acc : List BreakDesc) (ev : BreakDesc) :
    (storePageBreakData acc ev).map (fun d => d.prevPage) =
      if ev.prevPage ∈ acc.map (fun d => d.prevPage) then
        acc.map (fun d => d.prevPage)
      else acc.map (fun d => d.prevPage) ++ [ev.prevPage] := by
  induction acc with
  | nil => simp [storePageBreakData]
  | cons d rest ih =>
    by_cases hd : d.prevPage = ev.prevPage
    · simp [storePageBreakData, hd]
    · simp only [storePageBreakData, if_neg hd, List.map_cons, ih]
      by_cases hmem : ev.prevPage ∈ rest.map (fun d => d.prevPage)
      · simp [hmem, Ne.symm hd]
      · simp [hmem, Ne.symm hd]

theorem storePBD_nodup (acc : List BreakDesc) (ev : BreakDesc)
    (hnd : (acc.map fun d => d.prevPage).Nodup) :
    ((storePageBreakData acc ev).map fun d => d.prevPage).Nodup := by
  rw [storePBD_pages]
  split
  · exact hnd
  · next hmem =>
    rw [List.nodup_append]
    exact ⟨hnd, List.nodup_singleton _, by simpa [List.disjoint_singleton] using hmem⟩

theorem storePBD_pages_superset (acc : List BreakDesc) (ev : BreakDesc) (q : Nat)
    (h : q ∈ acc.map (fun d => d.prevPage) ∨ q = ev.prevPage) :
    q ∈ (storePageBreakData acc ev).map (fun d => d.prevPage) := by
  rw [storePBD_pages]
  split
  · next hmem =>
    rcases h with h | h
    · exact h
    · exact h ▸ hmem
  · rcases h with h | h
    · exact List.mem_append_left _ h
    · simp [h]

theorem storePBD_mem (acc : List BreakDesc) (ev : BreakDesc)
    (hnd : (acc.map fun d => d.prevPage).Nodup) :
    ∀ d ∈ storePageBreakData acc ev,
      (d ∈ acc ∧ d.prevPage ≠ ev.prevPage) ∨
      (∃ d0 ∈ acc, d0.prevPage = ev.prevPage ∧
        d = { d0 with prevY := max d0.prevY ev.prevY, y := min d0.y ev.y }) ∨
      (d = ev ∧ ev.prevPage ∉ acc.map fun d0 => d0.prevPage) := by
  induction acc with
  | nil =>
    intro d hd
    simp only [storePageBreakData, List.mem_singleton] at hd
    subst hd
    exact Or.inr (Or.inr ⟨rfl, by simp⟩)
  | cons d0 rest ih =>
    intro d hd
    simp only [List.map_cons, List.nodup_cons] at hnd
    obtain ⟨hnotin, hndrest⟩ := hnd
    by_cases h0 : d0.prevPage = ev.prevPage
    · rw [storePageBreakData, if_pos h0] at hd
      rcases List.mem_cons.mp hd with heq | hmem
      · exact Or.inr (Or.inl ⟨d0, List.mem_cons_self _ _, h0, heq⟩)
      · refine Or.inl ⟨List.mem_cons_of_mem _ hmem, fun hcontra => ?_⟩
        exact hnotin (h0 ▸ hcontra ▸ List.mem_map_of_mem _ hmem)
    · rw [storePageBreakData, if_neg h0] at hd
      rcases List.mem_cons.mp hd with heq | hmem
      · exact Or.inl ⟨by rw [heq]; exact List.mem_cons_self _ _, by rw [heq]; exact h0⟩
      · rcases ih hndrest d hmem with h | h | h
        · exact Or.inl ⟨List.mem_cons_of_mem _ h.1, h.2⟩
        · obtain ⟨dd, hdd, hp, he⟩ := h
          exact Or.inr (Or.inl ⟨dd, List.mem_cons_of_mem _ hdd, hp, he⟩)
        · refine Or.inr (Or.inr ⟨h.1, ?_⟩)
          simp only [List.map_cons, List.mem_cons, not_or]
          exact ⟨fun hc => h0 hc.symm, h.2⟩

/-- The merge invariant relating the accumulated descriptor list to the
events already folded: every descriptor attains its prevY as the maximum
and its y as the minimum over the events reported with its previous-page
index, and every folded event has a descriptor for its page. -/
def MergeInv (seen acc : List BreakDesc) : Prop :=
  (∀ d ∈ acc,
    (∃ e ∈ seen, e.prevPage = d.prevPage ∧ e.prevY = d.prevY) ∧
    (∀ e ∈ seen, e.prevPage = d.prevPage → e.prevY ≤ d.prevY) ∧
    (∃ e ∈ seen, e.prevPage = d.prevPage ∧ e.y = d.y) ∧
    (∀ e ∈ seen, e.prevPage = d.prevPage → d.y ≤ e.y)) ∧
  (∀ e ∈ seen, e.prevPage ∈ acc.map fun d => d.prevPage)

theorem mergeInv_step (seen acc : List BreakDesc) (ev : BreakDesc)
    (hnd : (acc.map fun d => d.prevPage).Nodup)
    (hinv : MergeInv seen acc) :
    MergeInv (seen ++ [ev]) (storePageBreakData acc ev) := by
  obtain ⟨hval, hpres⟩ := hinv
  constructor
  · intro d hd
    rcases storePBD_mem acc ev hnd d hd with ⟨hdacc, hdne⟩ | ⟨d0, hd0, hp, he⟩ | ⟨he, hnew⟩
    · obtain ⟨hattY, hubY, hatty, huby⟩ := hval d hdacc
      refine ⟨?_, ?_, ?_, ?_⟩
      · obtain ⟨e, he1, he2, he3⟩ := hattY
        exact ⟨e, List.mem_append_left _ he1, he2, he3⟩
      · intro e hemem hepage
        rcases List.mem_append.mp hemem with h | h
        · exact hubY e h hepage
        · rw [List.mem_singleton] at h
          exact absurd (h ▸ hepage).symm hdne
      · obtain ⟨e, he1, he2, he3⟩ := hatty
        exact ⟨e, List.mem_append_left _ he1, he2, he3⟩
      · intro e hemem hepage
        rcases List.mem_append.mp hemem with h | h
        · exact huby e h hepage
        · rw [List.mem_singleton] at h
          exact absurd (h ▸ hepage).symm hdne
    · obtain ⟨hattY, hubY, hatty, huby⟩ := hval d0 hd0
      subst he
      refine ⟨?_, ?_, ?_, ?_⟩
      · rcases max_choice d0.prevY ev.prevY with hmax | hmax
        · obtain ⟨e, he1, he2, he3⟩ := hattY
          exact ⟨e, List.mem_append_left _ he1, he2, by simpa [hmax] using he3⟩
        · exact ⟨ev, List.mem_append_right _ (List.mem_singleton_self _), hp.symm,
            by simp [hmax]⟩
      · intro e hemem hepage
        simp only at hepage ⊢
        rcases List.mem_append.mp hemem with h | h
        · exact le_trans (hubY e h hepage) (le_max_left _ _)
        · rw [List.mem_singleton] at h
          subst h
          exact le_max_right _ _
      · rcases min_choice d0.y ev.y with hmin | hmin
        · obtain ⟨e, he1, he2, he3⟩ := hatty
          exact ⟨e, List.mem_append_left _ he1, he2, by simpa [hmin] using he3⟩
        · exact ⟨ev, List.mem_append_right _ (List.mem_singleton_self _), hp.symm,
            by simp [hmin]⟩
      · intro e hemem hepage
        simp only at hepage ⊢
        rcases List.mem_append.mp hemem with h | h
        · exact le_trans (min_le_left _ _) (huby e h hepage)
        · rw [List.mem_singleton] at h
          subst h
          exact min_le_right _ _
    · subst he
      refine ⟨⟨d, List.mem_append_right _ (List.mem_singleton_self _), rfl, rfl⟩,
        ?_, ⟨d, List.mem_append_right _ (List.mem_singleton_self _), rfl, rfl⟩, ?_⟩
      · intro e hemem hepage
        rcases List.mem_append.mp hemem with h | h
        · exact absurd (hepage ▸ hpres e h) hnew
        · rw [List.mem_singleton] at h
          exact le_of_eq (congrArg BreakDesc.prevY h)
      · intro e hemem hepage
        rcases List.mem_append.mp hemem with h | h
        · exact absurd (hepage ▸ hpres e h) hnew
        · rw [List.mem_singleton] at h
          exact le_of_eq (congrArg BreakDesc.y h.symm)
  · intro e hemem
    rcases List.mem_append.mp hemem with h | h
    · exact storePBD_pages_superset _ _ _ (Or.inl (hpres e h))
    · rw [List.mem_singleton] at h
      exact storePBD_pages_superset _ _ _ (Or.inr (congrArg BreakDesc.prevPage h))

theorem mergeInv_fold (events : List BreakDesc) :
    ∀ (seen acc : List BreakDesc), (acc.map fun d => d.prevPage).Nodup →
      MergeInv seen acc →
      ((events.foldl storePageBreakData acc).map fun d => d.prevPage).Nodup ∧
      MergeInv (seen ++ events) (events.foldl storePageBreakData acc) := by
  induction events with
  | nil =>
    intro seen acc hnd hinv
    simpa using ⟨hnd, hinv⟩
  | cons ev rest ih =>
    intro seen acc hnd hinv
    have h := ih (seen ++ [ev]) (storePageBreakData acc ev)
      (storePBD_nodup acc ev hnd) (mergeInv_step seen acc ev hnd hinv)
    simpa [List.append_assoc] using h

/-- C3: the pageBreaks list processRow returns holds at most one descriptor
per distinct previous-page index no matter how many columns reported a
break on that transition, and each descriptor carries the maximum prevY and
the minimum y over all page-change events reported with that previous-page
index during the row. -/
theorem processRow_pageBreaks_merged (events : List BreakDesc) :
    ((processRowPageBreaks events).map fun d => d.prevPage).Nodup ∧
    (∀ p, ((processRowPageBreaks events).filter fun d => d.prevPage == p).length ≤ 1) ∧
    ∀ d ∈ processRowPageBreaks events,
      (∃ e ∈ events, e.prevPage = d.prevPage ∧ e.prevY = d.prevY) ∧
      (∀ e ∈ events, e.prevPage = d.prevPage → e.prevY ≤ d.prevY) ∧
      (∃ e ∈ events, e.prevPage = d.prevPage ∧ e.y = d.y) ∧
      (∀ e ∈ events, e.prevPage = d.prevPage → d.y ≤ e.y) := by
  have hbase : MergeInv [] [] := ⟨by simp, by simp⟩
  have h := mergeInv_fold events [] [] (by simp) hbase
  rw [List.nil_append] at h
  refine ⟨h.1, ?_, h.2.1⟩
  intro p
  have hcount := List.nodup_iff_count_le_one.mp h.1 p
  rw [← List.countP_eq_length_filter]
  calc ((processRowPageBreaks events).countP fun d => d.prevPage == p)
      = ((processRowPageBreaks events).map fun d => d.prevPage).countP (fun q => q == p) := by
        rw [List.countP_map]
        rfl
    _ ≤ 1 := by
        rw [← List.count]
        exact hcount

/-- Two concrete events on the same page transition for the C3 witness. -/
def cEvents : List BreakDesc := [{ prevPage := 1, prevY := 10, y := 100 },
  { prevPage := 1, prevY := 20, y := 50 }]

/-- Witness for C3: two breaks reported on the same transition merge into a
single descriptor and the upper bound applies to the first event. -/
theorem processRow_pageBreaks_merged_witness :
    (((processRowPageBreaks cEvents).map fun d => d.prevPage).Nodup) ∧
    ((processRowPageBreaks cEvents).filter fun d => d.prevPage == 1).length ≤ 1 := by
  exact ⟨(processRow_pageBreaks_merged cEvents).1,
    (processRow_pageBreaks_merged cEvents).2.1 1⟩

theorem mem_dedupFirstGo (a : Nat) :
    ∀ (l seen : List Nat), a ∈ dedupFirstGo seen l ↔ a ∈ l ∧ a ∉ seen := by
  intro l
  induction l with
  | nil => intro seen; simp [dedupFirstGo]
  | cons x xs ih =>
    intro seen
    by_cases hx : x ∈ seen
    · rw [dedupFirstGo, if_pos hx, ih]
      constructor
      · rintro ⟨h1, h2⟩
        exact ⟨List.mem_cons_of_mem _ h1, h2⟩
      · rintro ⟨h1, h2⟩
        rcases List.mem_cons.mp h1 with h | h
        · exact absurd (h ▸ hx) h2
        · exact ⟨h, h2⟩
    · rw [dedupFirstGo, if_neg hx]
      constructor
      · intro h
        rcases List.mem_cons.mp h with h | h
        · exact ⟨h ▸ List.mem_cons_self _ _, h ▸ hx⟩
        · obtain ⟨h1, h2⟩ := (ih (x :: seen)).mp h
          refine ⟨List.mem_cons_of_mem _ h1, fun hc => h2 (List.mem_cons_of_mem _ hc)⟩
      · rintro ⟨h1, h2⟩
        rcases List.mem_cons.mp h1 with h | h
        · exact h ▸ List.mem_cons_self _ _
        · by_cases hax : a = x
          · exact hax ▸ List.mem_cons_self _ _
          · exact List.mem_cons_of_mem _
              ((ih (x :: seen)).mpr ⟨h, by simp [hax, h2]⟩)

theorem mem_dedupFirst (a : Nat) (l : List Nat) : a ∈ dedupFirst l ↔ a ∈ l := by
  rw [dedupFirst, mem_dedupFirstGo]
  simp

theorem dedupFirst_head (x : Nat) (xs : List Nat) :
    (dedupFirst (x :: xs)).headD 0 = x := by
  rw [dedupFirst, dedupFirstGo, if_neg (List.not_mem_nil x)]
  rfl

theorem mkNodeInfo_firstPage (npages : Nat) (n : LNode) (hpos : n.positions ≠ []) :
    (mkNodeInfo npages n).pageNumbers.headD 0 =
      (n.positions.headD { pageNumber := 0 }).pageNumber := by
  cases hp : n.positions with
  | nil => exact absurd hp hpos
  | cons p rest =>
    simp only [mkNodeInfo, hp, List.map_cons]
    rw [dedupFirst_head]
    rfl

theorem mkNodeInfo_pageMem (npages q : Nat) (n : LNode) :
    (mkNodeInfo npages n).pageNumbers.contains q =
      n.positions.any fun pos => pos.pageNumber == q := by
  rw [Bool.eq_iff_iff]
  simp only [List.contains_iff_exists_mem_beq, List.any_eq_true, beq_iff_eq]
  simp only [mkNodeInfo, mem_dedupFirst, List.mem_map]
  constructor
  · rintro ⟨b, ⟨pos, hpos, rfl⟩, hb⟩
    exact ⟨pos, hpos, hb.symm⟩
  · rintro ⟨pos, hpos, hb⟩
    exact ⟨pos.pageNumber, ⟨pos, hpos, rfl⟩, hb.symm⟩

/-- C4 (amended): when the predicate is invoked for the node at position k
of the filtered list, whose first position lies on page p, the
nodes-on-next-page argument consists exactly of the later-visited nodes
whose recorded positions touch page p + 1 — whatever page those nodes begin
on. -/
theorem nodesOnNextPage_spec (npages : Nat) (nodes : List LNode) (k : Nat)
    (hk : k < nodes.length) (hpos : ∀ n ∈ nodes, n.positions ≠ []) :
    (predArgsAt (nodes.map (mkNodeInfo npages)) k).nodesOnNextPage =
      ((nodes.drop (k + 1)).filter fun n =>
          n.positions.any fun pos =>
            pos.pageNumber ==
              ((nodes.getD k {}).positions.headD { pageNumber := 0 }).pageNumber + 1).map
        (mkNodeInfo npages) := by
  have hget : (nodes.map (mkNodeInfo npages)).getD k defaultInfo =
      mkNodeInfo npages (nodes.getD k {}) := by
    rw [List.getD_eq_getElem?_getD, List.getD_eq_getElem?_getD, List.getElem?_map]
    cases hx : nodes[k]? with
    | none => exact absurd (List.getElem?_eq_none_iff.mp hx) (by omega)
    | some v => rfl
  have hfirst : ((nodes.map (mkNodeInfo npages)).getD k defaultInfo).pageNumbers.headD 0 =
      ((nodes.getD k {}).positions.headD { pageNumber := 0 }).pageNumber := by
    rw [hget]
    refine mkNodeInfo_firstPage npages _ (hpos _ ?_)
    rw [List.getD_eq_getElem?_getD]
    cases hx : nodes[k]? with
    | none => exact absurd (List.getElem?_eq_none_iff.mp hx) (by omega)
    | some v =>
      simpa using List.getElem?_mem hx
  simp only [predArgsAt, hfirst]
  rw [← List.map_drop]
  rw [List.filter_map]
  congr 1
  apply List.filter_congr
  intro n hn
  simp only [Function.comp]
  exact mkNodeInfo_pageMem npages _ n

/-- A node whose single position lies on page one. -/
def cNode0 : LNode := { positions := [{ pageNumber := 1 }] }

/-- A node that begins on page one and runs onto page two. -/
def cNode1 : LNode := { positions := [{ pageNumber := 1 }, { pageNumber := 2 }] }

/-- Counterexample for C4: the predicate is invoked for the first node,
whose first position is on page one; the nodes-on-next-page argument
contains the second node although that node begins on page one, not on page
two — the scan tests whether the later node merely touches the next page,
not whether it begins there. -/
theorem nodesOnNextPage_counterexample :
    (predArgsAt ([cNode0, cNode1].map (mkNodeInfo 2)) 0).nodesOnNextPage =
      [mkNodeInfo 2 cNode1] ∧
    (mkNodeInfo 2 cNode1).pageNumbers.headD 0 = 1 ∧
    (mkNodeInfo 2 cNode0).pageNumbers.headD 0 = 1 := by
  decide

/-- Witness for C4 at the concrete two-node document. -/
theorem nodesOnNextPage_spec_witness :
    (predArgsAt ([cNode0, cNode1].map (mkNodeInfo 2)) 0).nodesOnNextPage =
      (([cNode0, cNode1].drop 1).filter fun n =>
          n.positions.any fun pos =>
            pos.pageNumber ==
              (([cNode0, cNode1].getD 0 {}).positions.headD { pageNumber := 0 }).pageNumber +
                1).map
        (mkNodeInfo 2) :=
  nodesOnNextPage_spec 2 [cNode0, cNode1] 0 (by decide) (by decide)

theorem scanGo_none (pred : Nat → PredArgs → Bool) (infos : List NodeInfo) (c : Nat)
    (hq : ∀ n a, c ≤ n → pred n a = false) :
    ∀ (rest : List (Nat × Nat)) (doc : List LNode) (counter : Nat), c ≤ counter →
      (scanGo pred infos rest doc counter).1 = none := by
  intro rest
  induction rest with
  | nil => intro doc counter _; rfl
  | cons ki rest ih =>
    intro doc counter hc
    obtain ⟨k, i⟩ := ki
    rw [scanGo]
    by_cases hcond : (doc.getD i {}).pageBreak ≠ PBMark.before ∧
        (doc.getD i {}).pageBreakCalculated = false
    · rw [if_pos hcond, hq counter (predArgsAt infos k) hc]
      simp only [Bool.false_eq_true, if_false]
      exact ih _ _ (Nat.le_succ_of_le hc)
    · rw [if_neg hcond]
      exact ih _ _ hc

theorem scanGo_fired (pred : Nat → PredArgs → Bool) (infos : List NodeInfo) :
    ∀ (rest : List (Nat × Nat)) (doc : List LNode) (counter i : Nat)
      (doc1 : List LNode) (c1 : Nat),
      (∀ p ∈ rest, p.2 < doc.length) →
      scanGo pred infos rest doc counter = (some i, doc1, c1) →
      counter < c1 ∧ (∃ n0 a0, n0 < c1 ∧ pred n0 a0 = true) ∧
        (doc1.getD i {}).pageBreak = PBMark.before := by
  intro rest
  induction rest with
  | nil =>
    intro doc counter i doc1 c1 _ h
    exact absurd h (by simp [scanGo])
  | cons ki rest ih =>
    intro doc counter i doc1 c1 hlen h
    obtain ⟨k, j⟩ := ki
    rw [scanGo] at h
    by_cases hcond : (doc.getD j {}).pageBreak ≠ PBMark.before ∧
        (doc.getD j {}).pageBreakCalculated = false
    · rw [if_pos hcond] at h
      by_cases hpred : pred counter (predArgsAt infos k) = true
      · rw [if_pos hpred] at h
        simp only [Prod.mk.injEq, Option.some.injEq] at h
        obtain ⟨h1, h2, h3⟩ := h
        subst h1
        subst h2
        refine ⟨by omega, ⟨counter, predArgsAt infos k, by omega, hpred⟩, ?_⟩
        have hj : j < doc.length := hlen (k, j) (List.mem_cons_self _ _)
        rw [List.getD_eq_getElem?_getD, List.getElem?_set_self (by omega)]
        rfl
      · rw [if_neg hpred] at h
        have hlen2 : ∀ p ∈ rest, p.2 <
            (doc.set j { doc.getD j {} with pageBreakCalculated := true }).length := by
          intro p hp
          rw [List.length_set]
          exact hlen p (List.mem_cons_of_mem _ hp)
        obtain ⟨ha, hb, hc⟩ := ih _ _ _ _ _ hlen2 h
        exact ⟨by omega, hb, hc⟩
    · rw [if_neg hcond] at h
      exact ih _ _ _ _ _ (fun p hp => hlen p (List.mem_cons_of_mem _ hp)) h

theorem mem_filteredIndices (doc : List LNode) (j : Nat)
    (h : j ∈ filteredIndices doc) : j < doc.length := by
  rw [filteredIndices, List.mem_filter] at h
  exact List.mem_range.mp h.1

/-- C1 (amended): for a predicate that answers true exactly once across the
whole run — it fires during the first scan and at no later invocation —
layoutDocument performs exactly two traversal attempts: the scan marks the
triggering node as broken-before, every visited node has its coordinates
reset before the re-run, and the returned page list is the one the second
traversal produces. -/
theorem layoutDocument_two_attempts (oracle : Oracle) (pred : Nat → PredArgs → Bool)
    (doc : List LNode) (k i : Nat) (doc1 : List LNode) (c1 : Nat)
    (honce : ∀ n a n2 a2, pred n a = true → pred n2 a2 = true → n = n2)
    (hfire : addPageBreaksIfNecessary (some pred) (tryLayout oracle doc).1
      (tryLayout oracle doc).2 0 = (some i, doc1, c1)) :
    ∃ docF, layoutDocument oracle (some pred) (k + 2) doc =
        some ((tryLayout oracle (resetAll doc1)).2, 2, docF) ∧
      (doc1.getD i {}).pageBreak = PBMark.before ∧
      ∀ n ∈ resetAll doc1, n.x = n.origX ∧ n.y = n.origY := by
  have hb1 : ∀ p ∈ (filteredIndices (tryLayout oracle doc).1).enum,
      p.2 < (tryLayout oracle doc).1.length := by
    intro p hp
    obtain ⟨n, a⟩ := p
    exact mem_filteredIndices _ _ (List.getElem?_mem (List.mk_mem_enum_iff_getElem?.mp hp))
  have hfire2 : scanGo pred
      ((filteredIndices (tryLayout oracle doc).1).map fun i2 =>
        mkNodeInfo (tryLayout oracle doc).2.length ((tryLayout oracle doc).1.getD i2 {}))
      (filteredIndices (tryLayout oracle doc).1).enum
      (tryLayout oracle doc).1 0 = (some i, doc1, c1) := by
    simpa [addPageBreaksIfNecessary] using hfire
  obtain ⟨hc1pos, ⟨n0, a0, hn0, hpred0⟩, hmark⟩ :=
    scanGo_fired pred _ _ _ 0 i doc1 c1 hb1 hfire2
  have hquiet : ∀ n a, c1 ≤ n → pred n a = false := by
    intro n a hn
    cases hp : pred n a with
    | false => rfl
    | true =>
      have := honce n a n0 a0 hp hpred0
      omega
  have hscan2 : (addPageBreaksIfNecessary (some pred)
      (tryLayout oracle (resetAll doc1)).1 (tryLayout oracle (resetAll doc1)).2 c1).1 =
      none := by
    simp only [addPageBreaksIfNecessary]
    exact scanGo_none pred _ c1 hquiet _ _ c1 le_rfl
  unfold layoutDocument
  have hk2 : k + 2 = (k + 1) + 1 := rfl
  rw [hk2, layoutLoop, hfire]
  dsimp only
  rw [layoutLoop]
  rcases hsc : addPageBreaksIfNecessary (some pred)
      (tryLayout oracle (resetAll doc1)).1 (tryLayout oracle (resetAll doc1)).2 c1 with
    ⟨o, d2, c2⟩
  rw [hsc] at hscan2
  simp only at hscan2
  subst hscan2
  refine ⟨d2, rfl, hmark, ?_⟩
  intro n hn
  simp only [resetAll, List.mem_map] at hn
  obtain ⟨m, _, rfl⟩ := hn
  exact ⟨rfl, rfl⟩

/-- A concrete traversal oracle for the convergence-loop claims: one
position on page one for every node, one page. -/
def cOracle : Oracle :=
  { positionsOf := fun _ _ => [{ pageNumber := 1 }],
    coordsOf := fun _ _ => (0, 0),
    pagesOf := fun _ => [0] }

/-- Counterexample for C1: a predicate that returns true at most once in
total (here never) leads to a single traversal attempt, not two — the
instrumented attempt counter of the run is one. -/
theorem layoutDocument_one_attempt_counterexample :
    layoutDocument cOracle (some fun _ _ => false) 5 [{}] =
      some ([0], 1,
        [{ pageBreakCalculated := true
           positions := [{ pageNumber := 1 }] }]) := by
  rfl

/-- The predicate of the C1 witness: it answers true exactly at the first
invocation of the run. -/
def cPredOnce : Nat → PredArgs → Bool := fun n _ => n == 0

/-- The document state after the firing scan of the C1 witness. -/
def cDoc1 : List LNode :=
  [{ pageBreak := .before
     pageBreakCalculated := true
     positions := [{ pageNumber := 1 }] }]

/-- Witness for C1 on a one-node document whose predicate fires exactly
once. -/
theorem layoutDocument_two_attempts_witness :
    ∃ docF, layoutDocument cOracle (some cPredOnce) (0 + 2) [{}] =
        some ((tryLayout cOracle (resetAll cDoc1)).2, 2, docF) ∧
      (cDoc1.getD 0 {}).pageBreak = PBMark.before ∧
      ∀ n ∈ resetAll cDoc1, n.x = n.origX ∧ n.y = n.origY :=
  layoutDocument_two_attempts cOracle cPredOnce [{}] 0 0 cDoc1 1
    (by
      intro n a n2 a2 h1 h2
      simp only [cPredOnce, beq_iff_eq] at h1 h2
      omega)
    (by rfl)

end PdfmakeLayout
